import Mathlib

/-!
# Verification of the `modicum` modular-arithmetic library

Shallow embedding of the library's operations over `Int`.  The generic
operand type `T` of the source is instantiated with `Int`; the Rust
operators `%` and `/` on signed integers are truncating, so they are
embedded as `Int.tmod` and `Int.tdiv`.  The modulus parameter (an
unsigned value cast into the operand type) is embedded as an `Int`
together with the hypothesis `0 < m` where a claim assumes it.
-/

namespace Modicum

/-- The recursive extended Euclidean algorithm of `src/egcd.rs`, indexed
by a fuel parameter so that the recursion is structural.  `egcd` below
instantiates the fuel with `b.natAbs`, which is an upper bound on the
number of recursive calls because the magnitude of the second argument
strictly decreases; the fuel-zero branch returns the same value as the
`b = 0` base case, and is only reached when `b = 0`. -/
def egcdAux : Nat → Int → Int → Int × Int × Int
  | 0, a, _ => (a, 1, 0)
  | fuel + 1, a, b =>
    if b = 0 then (a, 1, 0)
    else
      let p := egcdAux fuel b (Int.tmod a b)
      (p.1, p.2.2, p.2.1 - Int.tdiv a b * p.2.2)

/-- `fn egcd<T: Integer>(a: T, b: T) -> (T, T, T)` from `src/egcd.rs`:
if `b == 0` return `(a, 1, 0)`, else let `(d, x, y) = egcd(b, a % b)`
and return `(d, y, x - (a / b) * y)`. -/
def egcd (a b : Int) : Int × Int × Int := egcdAux b.natAbs a b

/-- `constrain` from `src/lib.rs`: `(self % modulus + modulus) % modulus`
with the host truncating remainder. -/
def constrain (v m : Int) : Int := Int.tmod (Int.tmod v m + m) m

/-- `fn invert<T, P>(a: T, p: P) -> Option<T>` from `src/invert.rs`:
`let (d, x, _) = a.constrain(p).egcd(p.cast()); if d != 1 { None }
else { Some(x.constrain(p)) }`. -/
def invert (a m : Int) : Option Int :=
  if (egcd (constrain a m) m).1 ≠ 1 then none
  else some (constrain (egcd (constrain a m) m).2.1 m)

/-- `div_mod` from `src/lib.rs`: `let inverse = rhs.invert(modulus)?;
Some((inverse * self).constrain(modulus))`. -/
def div_mod (a b m : Int) : Option Int :=
  match invert b m with
  | none => none
  | some inverse => some (constrain (inverse * a) m)

/-- The `while rhs != 0` loop of `pow_mod` in `src/lib.rs`, indexed by a
fuel parameter bounding `rhs.natAbs`, which strictly decreases at each
iteration (`rhs` is halved with truncating division).  The fuel-zero
branch returns `result`, the same value the loop returns once
`rhs = 0`. -/
def powModAux : Nat → Int → Int → Int → Int → Int
  | 0, _, result, _, _ => result
  | fuel + 1, base, result, rhs, m =>
    if rhs = 0 then result
    else
      let result' := if Int.tmod rhs 2 = 1 then constrain (result * base) m else result
      powModAux fuel (constrain (base * base) m) result' (Int.tdiv rhs 2) m

/-- `pow_mod` from `src/lib.rs`: square-and-multiply with `result`
initialised to `1` and `base` to `self`, odd-bit test `rhs % 2 == 1`,
both multiplications reduced via `mul_mod`, and `rhs = rhs / 2`. -/
def pow_mod (a e m : Int) : Int := powModAux e.natAbs a 1 e m

/-! ## Basic facts about the truncating remainder -/

/-- The magnitude of the truncating remainder is the remainder of the
magnitudes. -/
theorem natAbs_tmod (a b : Int) : (Int.tmod a b).natAbs = a.natAbs % b.natAbs := by
  cases a with
  | ofNat m =>
    cases b with
    | ofNat n => rfl
    | negSucc n => rfl
  | negSucc m =>
    cases b with
    | ofNat n =>
      show (-(Int.ofNat ((m + 1) % n))).natAbs = (m + 1) % n
      rw [Int.natAbs_neg]
      rfl
    | negSucc n =>
      show (-(Int.ofNat ((m + 1) % (n + 1)))).natAbs = (m + 1) % (n + 1)
      rw [Int.natAbs_neg]
      rfl

/-- For `b ≠ 0` the magnitude of `a % b` (truncating) is strictly below
the magnitude of `b`: the measure that makes `egcd` terminate. -/
theorem natAbs_tmod_lt (a : Int) {b : Int} (hb : b ≠ 0) :
    (Int.tmod a b).natAbs < b.natAbs := by
  rw [natAbs_tmod]
  exact Nat.mod_lt _ (Int.natAbs_pos.mpr hb)

/-! ## The fuel of `egcdAux` is irrelevant once it bounds `b.natAbs` -/

theorem egcdAux_zero_right (fuel : Nat) (a : Int) : egcdAux fuel a 0 = (a, 1, 0) := by
  cases fuel <;> simp [egcdAux]

theorem egcdAux_fuel_irrel :
    ∀ (f₁ f₂ : Nat) (a b : Int), b.natAbs ≤ f₁ → b.natAbs ≤ f₂ →
      egcdAux f₁ a b = egcdAux f₂ a b := by
  intro f₁
  induction f₁ with
  | zero =>
    intro f₂ a b h₁ _
    have hb : b = 0 := Int.natAbs_eq_zero.mp (Nat.le_zero.mp h₁)
    subst hb
    rw [egcdAux_zero_right, egcdAux_zero_right]
  | succ n ih =>
    intro f₂ a b h₁ h₂
    by_cases hb : b = 0
    · subst hb
      rw [egcdAux_zero_right, egcdAux_zero_right]
    · have hpos : 1 ≤ b.natAbs := Int.natAbs_pos.mpr hb
      obtain ⟨m, rfl⟩ : ∃ m, f₂ = m + 1 := by
        cases f₂ with
        | zero => omega
        | succ m => exact ⟨m, rfl⟩
      have hlt := natAbs_tmod_lt a hb
      simp only [egcdAux, if_neg hb]
      rw [ih m b (Int.tmod a b) (by omega) (by omega)]

/-- The source recurrence: for `b ≠ 0`,
`egcd a b = (d, y, x - (a / b) * y)` where `(d, x, y) = egcd b (a % b)`. -/
theorem egcd_rec (a b : Int) (hb : b ≠ 0) :
    egcd a b = ((egcd b (Int.tmod a b)).1, (egcd b (Int.tmod a b)).2.2,
      (egcd b (Int.tmod a b)).2.1 - Int.tdiv a b * (egcd b (Int.tmod a b)).2.2) := by
  have hpos : 1 ≤ b.natAbs := Int.natAbs_pos.mpr hb
  obtain ⟨n, hn⟩ : ∃ n, b.natAbs = n + 1 := by
    cases hfn : b.natAbs with
    | zero => omega
    | succ m => exact ⟨m, rfl⟩
  unfold egcd
  rw [hn]
  simp only [egcdAux, if_neg hb]
  rw [egcdAux_fuel_irrel n (Int.tmod a b).natAbs b (Int.tmod a b)
    (by have := natAbs_tmod_lt a hb; omega) le_rfl]

/-! ## The gcd invariant of the Euclidean step -/

/-- One Euclid step with the truncating remainder preserves the gcd of
the magnitudes. -/
theorem gcd_tmod (a b : Int) : Int.gcd b (Int.tmod a b) = Int.gcd a b := by
  unfold Int.gcd
  rw [natAbs_tmod]
  rw [Nat.gcd_comm, ← Nat.gcd_rec, Nat.gcd_comm]

/-- Bezout identity for `egcd`, by strong induction on the magnitude of
the second argument. -/
theorem egcd_bezout : ∀ (n : Nat) (a b : Int), b.natAbs = n →
    a * (egcd a b).2.1 + b * (egcd a b).2.2 = (egcd a b).1 := by
  intro n
  induction n using Nat.strong_induction_on with
  | _ n ih =>
    intro a b hn
    by_cases hb : b = 0
    · subst hb
      simp [egcd, egcdAux]
    · have hlt := natAbs_tmod_lt a hb
      have h2 := ih (Int.tmod a b).natAbs (by omega) b (Int.tmod a b) rfl
      rw [egcd_rec a b hb]
      set p := egcd b (Int.tmod a b) with hp
      dsimp only
      rw [Int.tmod_def] at h2
      linear_combination h2

/-- The magnitude of the first component of `egcd a b` is the gcd of the
magnitudes of `a` and `b`. -/
theorem egcd_d_natAbs : ∀ (n : Nat) (a b : Int), b.natAbs = n →
    (egcd a b).1.natAbs = Int.gcd a b := by
  intro n
  induction n using Nat.strong_induction_on with
  | _ n ih =>
    intro a b hn
    by_cases hb : b = 0
    · subst hb
      simp [egcd, egcdAux, Int.gcd]
    · have hlt := natAbs_tmod_lt a hb
      rw [egcd_rec a b hb]
      dsimp only
      rw [ih (Int.tmod a b).natAbs (by omega) b (Int.tmod a b) rfl, gcd_tmod]

/-- On non-negative inputs the first component of `egcd` is the gcd
itself (no sign adjustment is needed). -/
theorem egcd_d_nonneg : ∀ (n : Nat) (a b : Int), b.natAbs = n → 0 ≤ a → 0 ≤ b →
    (egcd a b).1 = (Int.gcd a b : Int) := by
  intro n
  induction n using Nat.strong_induction_on with
  | _ n ih =>
    intro a b hn ha hb0
    by_cases hb : b = 0
    · subst hb
      simp [egcd, egcdAux, Int.gcd, Int.natAbs_of_nonneg ha]
    · have hlt := natAbs_tmod_lt a hb
      rw [egcd_rec a b hb]
      dsimp only
      rw [ih (Int.tmod a b).natAbs (by omega) b (Int.tmod a b) rfl
        hb0 (Int.tmod_nonneg b ha), gcd_tmod]

/-! ## `constrain` and the Euclidean remainder -/

/-- For a positive modulus, `constrain` computes the Euclidean
remainder. -/
theorem constrain_eq_emod (v m : Int) (hm : 0 < m) : constrain v m = v % m := by
  unfold constrain
  have h1 : (Int.tmod v m).natAbs < m.natAbs := natAbs_tmod_lt v (by omega)
  have h3 : 0 ≤ Int.tmod v m + m := by omega
  have h4 : Int.tmod v m + m = v + m * (1 - Int.tdiv v m) := by
    rw [Int.tmod_def]
    ring
  rw [Int.tmod_eq_emod h3 (by omega : (0:Int) ≤ m), h4, Int.add_mul_emod_self_left]

theorem constrain_nonneg (v m : Int) (hm : 0 < m) : 0 ≤ constrain v m := by
  rw [constrain_eq_emod v m hm]
  exact Int.emod_nonneg v (by omega)

theorem constrain_lt (v m : Int) (hm : 0 < m) : constrain v m < m := by
  rw [constrain_eq_emod v m hm]
  exact Int.emod_lt_of_pos v hm

/-! ## Characterisation of `invert` -/

/-- `invert` fails exactly when the reduced operand shares a nontrivial
factor with the modulus. -/
theorem invert_eq_none_iff (a m : Int) (hm : 0 < m) :
    invert a m = none ↔ Int.gcd (constrain a m) m ≠ 1 := by
  unfold invert
  have hd : (egcd (constrain a m) m).1 = (Int.gcd (constrain a m) m : Int) :=
    egcd_d_nonneg m.natAbs (constrain a m) m rfl (constrain_nonneg a m hm) (by omega)
  rw [hd]
  rcases eq_or_ne (Int.gcd (constrain a m) m) 1 with h | h
  · simp [h]
  · simp [h, Nat.cast_eq_one]

/-- When `invert` succeeds, the returned value is the reduced Bezout
coefficient, and the Bezout identity has right-hand side `1`. -/
theorem invert_eq_some (a m x : Int) (hm : 0 < m) (hx : invert a m = some x) :
    x = constrain (egcd (constrain a m) m).2.1 m ∧
    constrain a m * (egcd (constrain a m) m).2.1 +
      m * (egcd (constrain a m) m).2.2 = 1 := by
  unfold invert at hx
  by_cases hd : (egcd (constrain a m) m).1 ≠ 1
  · rw [if_pos hd] at hx
    exact absurd hx (by simp)
  · rw [if_neg hd] at hx
    have hd1 : (egcd (constrain a m) m).1 = 1 := not_not.mp hd
    refine ⟨(Option.some_inj.mp hx).symm, ?_⟩
    have hb := egcd_bezout m.natAbs (constrain a m) m rfl
    rw [hd1] at hb
    exact hb

/-- Whenever `invert` succeeds, the product of the operand with the
returned value is congruent to `1` modulo `m`. -/
theorem invert_mul_emod (a m x : Int) (hm : 0 < m) (hx : invert a m = some x) :
    a * x % m = 1 % m := by
  obtain ⟨hxe, hb⟩ := invert_eq_some a m x hm hx
  simp only [constrain_eq_emod, hm] at hxe hb
  set q := (egcd (a % m) m).2.1 with hq
  set r := (egcd (a % m) m).2.2 with hr
  have h1 : a * (q % m) % m = a % m * q % m := by
    conv_lhs => rw [Int.mul_emod]
    conv_rhs => rw [Int.mul_emod]
    rw [Int.emod_emod, Int.emod_emod]
  have h2 : a % m * q = 1 + m * (-r) := by linear_combination hb
  rw [hxe, h1, h2, Int.add_mul_emod_self_left]

/-! ## Claim theorems: `egcd`, `constrain`, `invert`, `div_mod` -/

/-- C1 (amended): for all `a, b`, `egcd a b = (d, x, y)` satisfies the
Bezout identity `a*x + b*y = d`, and the magnitude of `d` equals
`gcd(|a|, |b|)`; the sign of `d` follows the algorithm's remainder
sequence (non-negative when the inputs are non-negative) and can be
negative for negative inputs. -/
theorem egcd_spec (a b : Int) :
    a * (egcd a b).2.1 + b * (egcd a b).2.2 = (egcd a b).1 ∧
    (egcd a b).1.natAbs = Nat.gcd a.natAbs b.natAbs :=
  ⟨egcd_bezout b.natAbs a b rfl, egcd_d_natAbs b.natAbs a b rfl⟩

/-- C1 counterexample: at `a = -1, b = 0` the first component of the
returned triple is `-1`, not `gcd(|-1|, |0|) = 1`. -/
theorem egcd_spec_counterexample :
    ¬ ((egcd (-1) 0).1 = (Nat.gcd (Int.natAbs (-1)) (Int.natAbs 0) : Int)) := by
  decide

/-- C9: `egcd a 0 = (a, 1, 0)` for every `a`, negative values included;
in particular the first component carries the sign of `a`. -/
theorem egcd_zero_right (a : Int) : egcd a 0 = (a, 1, 0) := rfl

/-- C6: for `b ≠ 0` the second argument of the recursive call strictly
decreases in magnitude (`|a % b| < |b|` with the truncating remainder),
and `egcd` satisfies the source's recursive equation, so the recursion
reaches the base case `b = 0` after finitely many steps. -/
theorem egcd_terminates (a b : Int) (hb : b ≠ 0) :
    (Int.tmod a b).natAbs < b.natAbs ∧
    egcd a b = ((egcd b (Int.tmod a b)).1, (egcd b (Int.tmod a b)).2.2,
      (egcd b (Int.tmod a b)).2.1 - Int.tdiv a b * (egcd b (Int.tmod a b)).2.2) :=
  ⟨natAbs_tmod_lt a hb, egcd_rec a b hb⟩

theorem egcd_terminates_witness :
    (Int.tmod 7 3).natAbs < (3 : Int).natAbs ∧
    egcd 7 3 = ((egcd 3 (Int.tmod 7 3)).1, (egcd 3 (Int.tmod 7 3)).2.2,
      (egcd 3 (Int.tmod 7 3)).2.1 - Int.tdiv 7 3 * (egcd 3 (Int.tmod 7 3)).2.2) :=
  egcd_terminates 7 3 (by decide)

/-- C4: for a positive modulus, `constrain` lands in `[0, m)` for every
operand value, positive, zero, or negative. -/
theorem constrain_range (v m : Int) (hm : 0 < m) :
    0 ≤ constrain v m ∧ constrain v m < m :=
  ⟨constrain_nonneg v m hm, constrain_lt v m hm⟩

theorem constrain_range_witness :
    0 ≤ constrain (-10) 7 ∧ constrain (-10) 7 < 7 :=
  constrain_range (-10) 7 (by decide)

/-- C7: reduction is idempotent for a positive modulus. -/
theorem constrain_idem (v m : Int) (hm : 0 < m) :
    constrain (constrain v m) m = constrain v m := by
  rw [constrain_eq_emod v m hm, constrain_eq_emod _ m hm, Int.emod_emod]

theorem constrain_idem_witness :
    constrain (constrain (-10) 7) 7 = constrain (-10) 7 :=
  constrain_idem (-10) 7 (by decide)

/-- C2 (amended): for `0 < m`, whenever `invert a m` returns `some x`
the product satisfies `constrain (a*x) m = constrain 1 m` (which equals
`1` whenever `m > 1`, but is `0` at `m = 1`); and `invert a m = none`
iff `gcd (constrain a m) m ≠ 1`. -/
theorem invert_spec (a m x : Int) (hm : 0 < m) :
    (invert a m = some x → constrain (a * x) m = constrain 1 m) ∧
    (invert a m = none ↔ Int.gcd (constrain a m) m ≠ 1) := by
  refine ⟨fun hx => ?_, invert_eq_none_iff a m hm⟩
  rw [constrain_eq_emod _ m hm, constrain_eq_emod 1 m hm]
  exact invert_mul_emod a m x hm hx

theorem invert_spec_witness :
    (invert 3 11 = some 4 → constrain (3 * 4) 11 = constrain 1 11) ∧
    (invert 3 11 = none ↔ Int.gcd (constrain 3 11) 11 ≠ 1) :=
  invert_spec 3 11 4 (by decide)

/-- C2 counterexample: at `m = 1` the claim as stated fails:
`invert 0 1 = some 0` yet `constrain (0 * 0) 1 = 0 ≠ 1`. -/
theorem invert_spec_counterexample :
    invert 0 1 = some 0 ∧ constrain (0 * 0) 1 ≠ 1 := by
  decide

/-- C5: if `div_mod a b m = some r` then `b * r` and `a` have the same
residue, and `div_mod` returns `none` exactly when `invert b m` does. -/
theorem div_mod_spec (a b m r : Int) (hm : 0 < m) :
    (div_mod a b m = some r → constrain (b * r) m = constrain a m) ∧
    (div_mod a b m = none ↔ invert b m = none) := by
  constructor
  · intro hr
    unfold div_mod at hr
    cases hinv : invert b m with
    | none =>
      rw [hinv] at hr
      exact absurd hr (by simp)
    | some inv =>
      rw [hinv] at hr
      have hre : r = constrain (inv * a) m := (Option.some_inj.mp hr).symm
      have h0 := invert_mul_emod b m inv hm hinv
      rw [hre, constrain_eq_emod _ m hm, constrain_eq_emod _ m hm,
        constrain_eq_emod a m hm]
      have e1 : b * ((inv * a) % m) % m = b * inv * a % m := by
        conv_lhs => rw [Int.mul_emod]
        rw [Int.emod_emod, ← Int.mul_emod, ← mul_assoc]
      rw [e1, Int.mul_emod (b * inv) a m, h0, ← Int.mul_emod, one_mul]
  · unfold div_mod
    cases hinv : invert b m with
    | none => simp
    | some inv => simp

theorem div_mod_spec_witness :
    (div_mod 10 5 7 = some 2 → constrain (5 * 2) 7 = constrain 10 7) ∧
    (div_mod 10 5 7 = none ↔ invert 5 7 = none) :=
  div_mod_spec 10 5 7 2 (by decide)

/-! ## Claim theorems: `pow_mod` -/

theorem powModAux_zero_rhs (fuel : Nat) (base result m : Int) :
    powModAux fuel base result 0 m = result := by
  cases fuel <;> simp [powModAux]

/-- C3: `pow_mod a 0 m = 1` for every base `a` (a base congruent to `0`
included), and `pow_mod a 1 m = constrain a m`. -/
theorem pow_mod_zero_one (a m : Int) (hm : 0 < m) :
    pow_mod a 0 m = 1 ∧ pow_mod a 1 m = constrain a m := by
  refine ⟨rfl, ?_⟩
  show constrain (1 * a) m = constrain a m
  rw [one_mul]

theorem pow_mod_zero_one_witness :
    pow_mod 10 0 7 = 1 ∧ pow_mod 10 1 7 = constrain 10 7 :=
  pow_mod_zero_one 10 7 (by decide)

/-- Once the exponent is at least `1`, the loop's last iteration passes
the accumulator through `constrain`, so the final value is a residue. -/
theorem powModAux_range :
    ∀ (fuel : Nat) (base result rhs m : Int), 0 < m → 1 ≤ rhs →
      rhs.natAbs ≤ fuel →
      0 ≤ powModAux fuel base result rhs m ∧ powModAux fuel base result rhs m < m := by
  intro fuel
  induction fuel with
  | zero =>
    intro base result rhs m hm hr hf
    exfalso
    omega
  | succ n ih =>
    intro base result rhs m hm hr hf
    have hrne : rhs ≠ 0 := by omega
    simp only [powModAux, if_neg hrne]
    by_cases h1 : rhs = 1
    · subst h1
      rw [if_pos (show Int.tmod 1 2 = 1 from rfl),
        show Int.tdiv 1 2 = 0 from rfl, powModAux_zero_rhs]
      exact ⟨constrain_nonneg _ m hm, constrain_lt _ m hm⟩
    · have h2 : 2 ≤ rhs := by omega
      have htd : Int.tdiv rhs 2 = rhs / 2 := Int.tdiv_eq_ediv (by omega) (by decide)
      have hge : 1 ≤ Int.tdiv rhs 2 := by
        rw [htd]
        omega
      have hna : (Int.tdiv rhs 2).natAbs ≤ n := by
        rw [Int.natAbs_tdiv]
        show rhs.natAbs / 2 ≤ n
        omega
      exact ih _ _ _ m hm hge hna

/-- C8 (amended): for `0 < m` and `0 ≤ e`, `pow_mod a e m` lies in
`[0, m)` except in the single case `e = 0` with `m = 1`, where the loop
never runs and the unreduced initial accumulator `1` is returned. -/
theorem pow_mod_range (a e m : Int) (hm : 0 < m) (he : 0 ≤ e)
    (hx : ¬(e = 0 ∧ m = 1)) :
    0 ≤ pow_mod a e m ∧ pow_mod a e m < m := by
  by_cases h0 : e = 0
  · subst h0
    have hm1 : m ≠ 1 := fun h => hx ⟨rfl, h⟩
    show (0 : Int) ≤ 1 ∧ (1 : Int) < m
    omega
  · have he1 : 1 ≤ e := by omega
    unfold pow_mod
    exact powModAux_range e.natAbs a 1 e m hm he1 le_rfl

theorem pow_mod_range_witness :
    0 ≤ pow_mod 10 3 7 ∧ pow_mod 10 3 7 < 7 :=
  pow_mod_range 10 3 7 (by decide) (by decide) (by decide)

/-- C8 counterexample: `pow_mod 0 0 1 = 1`, and `1` is not below the
modulus `1`, so the result is not a residue in `[0, 1)`. -/
theorem pow_mod_range_counterexample :
    pow_mod 0 0 1 = 1 ∧ ¬(pow_mod 0 0 1 < 1) := by
  decide

/-! ## Claim theorem: inversion is an involution up to canonicalisation -/

/-- C10: if `invert a m = some x` then `invert x m = some (constrain a m)`. -/
theorem invert_invert (a m : Int) (hm : 0 < m) (x : Int)
    (hx : invert a m = some x) : invert x m = some (constrain a m) := by
  obtain ⟨hxe, hb⟩ := invert_eq_some a m x hm hx
  simp only [constrain_eq_emod, hm] at hxe hb ⊢
  set x₀ := (egcd (a % m) m).2.1 with hx₀
  set y₀ := (egcd (a % m) m).2.2 with hy₀
  have hk : a % m * x + m * (y₀ + a % m * (x₀ / m)) = 1 := by
    rw [hxe, Int.emod_def x₀ m]
    linear_combination hb
  have hco : IsCoprime x m := ⟨a % m, y₀ + a % m * (x₀ / m), by linear_combination hk⟩
  have hg : Int.gcd x m = 1 := Int.gcd_eq_one_iff_coprime.mpr hco
  have hx0 : 0 ≤ x := by
    rw [hxe]
    exact Int.emod_nonneg _ (by omega)
  have hxm : x < m := by
    rw [hxe]
    exact Int.emod_lt_of_pos _ hm
  have hcx : constrain x m = x := by
    rw [constrain_eq_emod x m hm]
    exact Int.emod_eq_of_lt hx0 hxm
  have hd : (egcd x m).1 = (Int.gcd x m : Int) :=
    egcd_d_nonneg m.natAbs x m rfl hx0 (by omega)
  have hbu := egcd_bezout m.natAbs x m rfl
  rw [hd, hg] at hbu
  push_cast at hbu
  unfold invert
  rw [hcx, hd, hg]
  rw [if_neg (by simp)]
  rw [constrain_eq_emod _ m hm]
  set u := (egcd x m).2.1 with hu
  set v := (egcd x m).2.2 with hv
  have hdvd : m ∣ x * (u - a % m) :=
    ⟨y₀ + a % m * (x₀ / m) - v, by linear_combination hbu - hk⟩
  have hdvd2 : m ∣ (u - a % m) := (hco.symm).dvd_of_dvd_mul_left hdvd
  have heq : u % m = a % m % m := by
    rw [Int.emod_eq_emod_iff_emod_sub_eq_zero]
    exact Int.emod_eq_zero_of_dvd hdvd2
  rw [heq, Int.emod_emod]

theorem invert_invert_witness :
    invert 3 11 = some 4 ∧ invert 4 11 = some (constrain 3 11) :=
  ⟨by decide, invert_invert 3 11 (by decide) 4 (by decide)⟩

end Modicum
